import Mathlib

/-!
Verification of the index-mapping subsystem of a document-editing MCP server.

The development shallowly embeds the pure core of
`src/googleDocsApiHelpers.ts` and the tool dispatch layer of
`src/server.ts`:

* `findTextRange`: reconstructs the logical string from text-run
  segments, scans for the Nth occurrence of a search string
  (resuming each search one character after the previous match start,
  exactly like the source's iterative `indexOf` loop), and maps the
  logical span back to native document offsets via the segment list;
* `getParagraphRange` / `findParagraphInContent`: recursive walk of the
  structural tree (paragraphs, tables, other elements) locating the
  paragraph element whose native range contains a given offset;
* the style request builders with their derived field masks;
* the range-consuming tools (`deleteRange`, `applyTextStyle`,
  `applyParagraphStyle`) and the `insertText` helper, with the list of
  batch requests they would send standing in for the network effect.

Strings are modelled as `List Char`; native offsets as `Nat`.  The
model covers non-empty search strings (the locator's documented
contract); JavaScript `indexOf` agrees with `indexOfFrom` below on
every non-empty needle.
-/

/-- Native half-open offset range, the unit passed to every mutation
request (`{ startIndex, endIndex }` in the source). -/
structure NativeRange where
  startIndex : Nat
  endIndex : Nat
deriving DecidableEq

/-- One text-run segment collected by `findTextRange`
(`{ text, start, end }` in the source; `end` is a Lean keyword and is
rendered `endIdx`). -/
structure Segment where
  text : List Char
  start : Nat
  endIdx : Nat
deriving DecidableEq

/-- Boolean prefix test on character lists (the semantics of
`fullText.startsWith` at an offset, used to model `indexOf`). -/
def isPrefixList : List Char → List Char → Bool
  | [], _ => true
  | _ :: _, [] => false
  | a :: s, b :: t => a == b && isPrefixList s t

/-- Fuelled scanning worker for `indexOfFrom` (the fuel makes the
recursion structural, so concrete instances compute; `indexOfFrom`
always supplies enough fuel). -/
def indexOfFromF (t s : List Char) : Nat → Nat → Option Nat
  | 0, _ => none
  | fuel + 1, i =>
    if i + s.length ≤ t.length then
      if isPrefixList s (t.drop i) then some i
      else indexOfFromF t s fuel (i + 1)
    else none

/-- Model of JavaScript `fullText.indexOf(textToFind, i)` for a
non-empty needle: the least position `p ≥ i` at which `s` occurs in
`t`, or `none`; the scan advances one position at a time. -/
def indexOfFrom (t s : List Char) (i : Nat) : Option Nat :=
  indexOfFromF t s (t.length + 1 - i) i

theorem indexOfFrom_unfold (t s : List Char) (i : Nat) :
    indexOfFrom t s i =
      if i + s.length ≤ t.length then
        if isPrefixList s (t.drop i) then some i
        else indexOfFrom t s (i + 1)
      else none := by
  unfold indexOfFrom
  by_cases h : i + s.length ≤ t.length
  · have h1 : t.length + 1 - i = (t.length - i) + 1 := by omega
    have h2 : t.length - i = t.length + 1 - (i + 1) := by omega
    rw [h1, indexOfFromF, if_pos h, h2, if_pos h]
  · rcases hf : t.length + 1 - i with _ | k
    · rw [indexOfFromF, if_neg h]
    · rw [indexOfFromF, if_neg h, if_neg h]

theorem indexOfFrom_none_of_gt {t s : List Char} {i : Nat}
    (h : t.length < i) : indexOfFrom t s i = none := by
  rw [indexOfFrom_unfold, if_neg (by omega)]

theorem indexOfFromF_ge : ∀ (fuel : Nat) {t s : List Char} {i p : Nat},
    indexOfFromF t s fuel i = some p → i ≤ p := by
  intro fuel
  induction fuel with
  | zero => intro t s i p h; exact absurd h (by simp [indexOfFromF])
  | succ k ih =>
    intro t s i p h
    rw [indexOfFromF] at h
    split at h
    · split at h
      · exact Nat.le_of_eq (Option.some.inj h)
      · have := ih h
        omega
    · exact absurd h (by simp)

theorem indexOfFromF_bound : ∀ (fuel : Nat) {t s : List Char} {i p : Nat},
    indexOfFromF t s fuel i = some p → p + s.length ≤ t.length := by
  intro fuel
  induction fuel with
  | zero => intro t s i p h; exact absurd h (by simp [indexOfFromF])
  | succ k ih =>
    intro t s i p h
    rw [indexOfFromF] at h
    split at h
    · split at h
      · cases Option.some.inj h
        assumption
      · exact ih h
    · exact absurd h (by simp)

theorem indexOfFrom_ge {t s : List Char} {i p : Nat}
    (h : indexOfFrom t s i = some p) : i ≤ p :=
  indexOfFromF_ge _ h

theorem indexOfFrom_bound {t s : List Char} {i p : Nat}
    (h : indexOfFrom t s i = some p) : p + s.length ≤ t.length :=
  indexOfFromF_bound _ h

/-- Fuelled worker for `occPositionsFrom`. -/
def occPositionsFromF (t s : List Char) : Nat → Nat → List Nat
  | 0, _ => []
  | fuel + 1, i =>
    match indexOfFrom t s i with
    | none => []
    | some p => p :: occPositionsFromF t s fuel (p + 1)

/-- All occurrence start positions of `s` in `t` from position `i`
onwards, in increasing order, enumerated exactly as the source's scan
does: after a match at `p` the next search starts at `p + 1`. -/
def occPositionsFrom (t s : List Char) (i : Nat) : List Nat :=
  occPositionsFromF t s (t.length + 1 - i) i

theorem occPositionsFromF_irrel (t s : List Char) : ∀ (f1 f2 i : Nat),
    t.length + 1 - i ≤ f1 → t.length + 1 - i ≤ f2 →
    occPositionsFromF t s f1 i = occPositionsFromF t s f2 i := by
  intro f1
  induction f1 with
  | zero =>
    intro f2 i h1 h2
    have hi : t.length < i := by omega
    cases f2 with
    | zero => rfl
    | succ m => rw [occPositionsFromF, occPositionsFromF, indexOfFrom_none_of_gt hi]
  | succ k ih =>
    intro f2 i h1 h2
    cases f2 with
    | zero =>
      have hi : t.length < i := by omega
      rw [occPositionsFromF, occPositionsFromF, indexOfFrom_none_of_gt hi]
    | succ m =>
      rw [occPositionsFromF, occPositionsFromF]
      cases hq : indexOfFrom t s i with
      | none => simp only [hq]
      | some p =>
        have hge := indexOfFrom_ge hq
        have hb := indexOfFrom_bound hq
        simp only [hq]
        rw [ih m (p + 1) (by omega) (by omega)]

theorem occPositionsFrom_mem_bound {t s : List Char} {i p : Nat}
    (h : p ∈ occPositionsFrom t s i) : p + s.length ≤ t.length := by
  unfold occPositionsFrom at h
  generalize hf : t.length + 1 - i = fuel at h
  clear hf
  induction fuel generalizing i with
  | zero => exact absurd h (by simp [occPositionsFromF])
  | succ k ih =>
    rw [occPositionsFromF] at h
    cases hq : indexOfFrom t s i with
    | none => simp only [hq] at h; exact absurd h (by simp)
    | some q =>
      simp only [hq] at h
      rcases List.mem_cons.mp h with h' | h'
      · cases h'
        exact indexOfFrom_bound hq
      · exact ih h'

/-- The number of occurrence positions of `s` in `t`, counting every
start position the scan visits. -/
def countOccurrences (t s : List Char) : Nat :=
  (occPositionsFrom t s 0).length

/-- The mapping pass of `findTextRange`: walk the segments with a
running logical cursor; record the native image of the logical start
the first time it falls inside a segment; stop (returning the native
image of the logical end) at the first segment whose logical span
contains the end.  Mirrors the `for (const seg of segments)` loop of
the source, with `Option` for the `-1` sentinels. -/
def mapSpan (segments : List Segment) (cursor ts te : Nat)
    (sAcc : Option Nat) : Option Nat × Option Nat :=
  match segments with
  | [] => (sAcc, none)
  | seg :: rest =>
    let segStart := cursor
    let segEnd := cursor + seg.text.length
    let sAcc' := if sAcc = none ∧ segStart ≤ ts ∧ ts < segEnd
                 then some (seg.start + (ts - segStart)) else sAcc
    if segStart < te ∧ te ≤ segEnd then
      (sAcc', some (seg.start + (te - segStart)))
    else mapSpan rest segEnd ts te sAcc'

/-- Map the first position in the list whose span `[p, p + len)` maps
cleanly to native offsets; `none` when no remaining position maps.
This is the reference form of the source's retry-next-occurrence
behaviour. -/
def tryMapFirst (segments : List Segment) (len : Nat) : List Nat → Option NativeRange
  | [] => none
  | p :: ps =>
    match mapSpan segments 0 p (p + len) none with
    | (some a, some b) => some ⟨a, b⟩
    | _ => tryMapFirst segments len ps

/-- Fuelled worker for `findLoop`. -/
def findLoopF (fullText : List Char) (segments : List Segment)
    (textToFind : List Char) : Nat → Nat → Nat → Option NativeRange
  | 0, _, _ => none
  | fuel + 1, instRemaining, searchStart =>
    match indexOfFrom fullText textToFind searchStart with
    | none => none
    | some idx =>
      if instRemaining ≤ 1 then
        match mapSpan segments 0 idx (idx + textToFind.length) none with
        | (some a, some b) => some ⟨a, b⟩
        | _ => findLoopF fullText segments textToFind fuel instRemaining (idx + 1)
      else findLoopF fullText segments textToFind fuel (instRemaining - 1) (idx + 1)

/-- The occurrence-scan-plus-mapping loop of `findTextRange`
(`while (foundCount < instance) ...`), reformulated with
`instRemaining = instance - foundCount`.  On finding the target
occurrence it attempts the mapping; on mapping failure it resumes the
search just past the failed match's start without counting it. -/
def findLoop (fullText : List Char) (segments : List Segment)
    (textToFind : List Char) (instRemaining searchStart : Nat) : Option NativeRange :=
  findLoopF fullText segments textToFind
    (fullText.length + 1 - searchStart) instRemaining searchStart

theorem findLoopF_irrel (t : List Char) (segs : List Segment) (s : List Char) :
    ∀ (f1 f2 r ss : Nat), t.length + 1 - ss ≤ f1 → t.length + 1 - ss ≤ f2 →
    findLoopF t segs s f1 r ss = findLoopF t segs s f2 r ss := by
  intro f1
  induction f1 with
  | zero =>
    intro f2 r ss h1 h2
    have hi : t.length < ss := by omega
    cases f2 with
    | zero => rfl
    | succ m => rw [findLoopF, findLoopF, indexOfFrom_none_of_gt hi]
  | succ k ih =>
    intro f2 r ss h1 h2
    cases f2 with
    | zero =>
      have hi : t.length < ss := by omega
      rw [findLoopF, findLoopF, indexOfFrom_none_of_gt hi]
    | succ m =>
      rw [findLoopF, findLoopF]
      cases hq : indexOfFrom t s ss with
      | none => simp only [hq]
      | some idx =>
        have hge := indexOfFrom_ge hq
        have hb := indexOfFrom_bound hq
        simp only [hq]
        by_cases hr : r ≤ 1
        · rw [if_pos hr, if_pos hr]
          cases mapSpan segs 0 idx (idx + s.length) none with
          | mk a b =>
            match a, b with
            | some a, some b => rfl
            | some a, none => exact ih m r (idx + 1) (by omega) (by omega)
            | none, some b => exact ih m r (idx + 1) (by omega) (by omega)
            | none, none => exact ih m r (idx + 1) (by omega) (by omega)
        · rw [if_neg hr, if_neg hr]
          exact ih m (r - 1) (idx + 1) (by omega) (by omega)

/-- Stable insertion of a segment into a list sorted by `start`
(helper for the model of `segments.sort((a, b) => a.start - b.start)`). -/
def insertByStart (seg : Segment) : List Segment → List Segment
  | [] => [seg]
  | b :: rest =>
    if seg.start ≤ b.start then seg :: b :: rest
    else b :: insertByStart seg rest

/-- Model of the source's `segments.sort((a, b) => a.start - b.start)`:
a stable ascending sort by native start offset. -/
def sortSegments : List Segment → List Segment
  | [] => []
  | a :: rest => insertByStart a (sortSegments rest)

/-- Concatenation of the segment texts in collection order: the
`fullText` accumulated by the source while pushing segments. -/
def fullTextOf : List Segment → List Char
  | [] => []
  | seg :: rest => seg.text ++ fullTextOf rest

/-- The pure core of `findTextRange` once the document has been
fetched and the segments collected: build the logical string, sort the
segments by native start, and run the scan/map loop.  A non-positive
`inst` never enters the source's `while` loop and yields `null`. -/
def findTextRangePure (segments : List Segment) (textToFind : List Char)
    (inst : Nat) : Option NativeRange :=
  if inst = 0 then none
  else findLoop (fullTextOf segments) (sortSegments segments) textToFind inst 0

theorem occPositionsFrom_eq_nil {t s : List Char} {i : Nat}
    (h : indexOfFrom t s i = none) : occPositionsFrom t s i = [] := by
  unfold occPositionsFrom
  rcases hf : t.length + 1 - i with _ | k
  · rw [occPositionsFromF]
  · rw [occPositionsFromF]
    simp only [h]

theorem occPositionsFrom_eq_cons {t s : List Char} {i p : Nat}
    (h : indexOfFrom t s i = some p) :
    occPositionsFrom t s i = p :: occPositionsFrom t s (p + 1) := by
  have hge := indexOfFrom_ge h
  have hb := indexOfFrom_bound h
  unfold occPositionsFrom
  have h1 : t.length + 1 - i = (t.length - i) + 1 := by omega
  rw [h1, occPositionsFromF]
  simp only [h]
  rw [occPositionsFromF_irrel t s (t.length - i) (t.length + 1 - (p + 1)) (p + 1)
    (by omega) (by omega)]

theorem findLoop_eq_of_none {t : List Char} {segs : List Segment}
    {s : List Char} {r ss : Nat}
    (h : indexOfFrom t s ss = none) : findLoop t segs s r ss = none := by
  unfold findLoop
  rcases hf : t.length + 1 - ss with _ | k
  · rw [findLoopF]
  · rw [findLoopF, h]

theorem findLoop_eq_of_some {t : List Char} {segs : List Segment}
    {s : List Char} {r ss idx : Nat} (h : indexOfFrom t s ss = some idx) :
    findLoop t segs s r ss
      = if r ≤ 1 then
          match mapSpan segs 0 idx (idx + s.length) none with
          | (some a, some b) => some ⟨a, b⟩
          | _ => findLoop t segs s r (idx + 1)
        else findLoop t segs s (r - 1) (idx + 1) := by
  have hge := indexOfFrom_ge h
  have hb := indexOfFrom_bound h
  unfold findLoop
  have h1 : t.length + 1 - ss = (t.length - ss) + 1 := by omega
  rw [h1, findLoopF]
  simp only [h]
  by_cases hr : r ≤ 1
  · rw [if_pos hr, if_pos hr]
    cases mapSpan segs 0 idx (idx + s.length) none with
    | mk a b =>
      match a, b with
      | some a, some b => rfl
      | some a, none =>
        exact findLoopF_irrel t segs s _ _ r (idx + 1) (by omega) (by omega)
      | none, some b =>
        exact findLoopF_irrel t segs s _ _ r (idx + 1) (by omega) (by omega)
      | none, none =>
        exact findLoopF_irrel t segs s _ _ r (idx + 1) (by omega) (by omega)
  · rw [if_neg hr, if_neg hr]
    exact findLoopF_irrel t segs s _ _ (r - 1) (idx + 1) (by omega) (by omega)

theorem findLoop_eq_tryMapFirst (t : List Char) (segs : List Segment)
    (s : List Char) (n i : Nat) (hn : 1 ≤ n) :
    findLoop t segs s n i
      = tryMapFirst segs s.length ((occPositionsFrom t s i).drop (n - 1)) := by
  cases h : indexOfFrom t s i with
  | none => rw [findLoop_eq_of_none h, occPositionsFrom_eq_nil h]; simp [tryMapFirst]
  | some p =>
    have hge := indexOfFrom_ge h
    have hb := indexOfFrom_bound h
    rw [findLoop_eq_of_some h, occPositionsFrom_eq_cons h]
    match n, hn with
    | 1, _ =>
      rw [if_pos (Nat.le_refl 1)]
      simp only [Nat.sub_self, List.drop_zero]
      rw [tryMapFirst]
      cases hm : mapSpan segs 0 p (p + s.length) none with
      | mk a b =>
        match a, b with
        | some a, some b => simp
        | some a, none =>
          simp only []
          rw [findLoop_eq_tryMapFirst t segs s 1 (p + 1) (Nat.le_refl 1)]
          simp
        | none, some b =>
          simp only []
          rw [findLoop_eq_tryMapFirst t segs s 1 (p + 1) (Nat.le_refl 1)]
          simp
        | none, none =>
          simp only []
          rw [findLoop_eq_tryMapFirst t segs s 1 (p + 1) (Nat.le_refl 1)]
          simp
    | m + 2, _ =>
      rw [if_neg (by omega : ¬ (m + 2 ≤ 1))]
      have h21 : m + 2 - 1 = m + 1 := by omega
      rw [h21, findLoop_eq_tryMapFirst t segs s (m + 1) (p + 1) (by omega),
        List.drop_succ_cons]
      have h22 : m + 1 - 1 = m := by omega
      rw [h22]
termination_by t.length + 1 - i
decreasing_by
  all_goals omega

/-! ### Contiguous segment lists and the mapping pass -/

/-- Total text length of a segment list (the length of the logical
string it contributes). -/
def totalLen : List Segment → Nat
  | [] => 0
  | seg :: rest => seg.text.length + totalLen rest

theorem fullTextOf_length : ∀ segs : List Segment,
    (fullTextOf segs).length = totalLen segs
  | [] => rfl
  | seg :: rest => by
    simp [fullTextOf, totalLen, fullTextOf_length rest]

/-- The segments, scanned with logical cursor `cursor`, all sit at a
constant native-minus-logical displacement `d`: the head starts at
native offset `cursor + d` and the rest are aligned after it.  This is
the invariant a gap-free fragment list satisfies. -/
def AlignedAt (d : Nat) : Nat → List Segment → Prop
  | _, [] => True
  | cursor, seg :: rest =>
      seg.start = cursor + d ∧ AlignedAt d (cursor + seg.text.length) rest

theorem alignedAt_of_chain : ∀ (segs : List Segment) (cursor d : Nat),
    (∀ seg ∈ segs, seg.endIdx = seg.start + seg.text.length) →
    List.Chain' (fun a b => a.endIdx = b.start) segs →
    (∀ seg0 rest0, segs = seg0 :: rest0 → seg0.start = cursor + d) →
    AlignedAt d cursor segs := by
  intro segs
  induction segs with
  | nil => intro cursor d _ _ _; trivial
  | cons seg rest ih =>
    intro cursor d hwf hchain hhead
    refine ⟨hhead seg rest rfl, ?_⟩
    apply ih
    · intro x hx; exact hwf x (List.mem_cons_of_mem _ hx)
    · exact (List.chain'_cons'.mp hchain).2
    · intro b rest0 hb
      have hrel := (List.chain'_cons'.mp hchain).1 b (by rw [hb]; rfl)
      have hw := hwf seg (List.mem_cons_self _ _)
      have hh := hhead seg rest rfl
      omega

theorem alignedAt_start_ge (d : Nat) : ∀ (segs : List Segment) (cursor : Nat),
    AlignedAt d cursor segs → ∀ seg ∈ segs, cursor + d ≤ seg.start := by
  intro segs
  induction segs with
  | nil => intro cursor _ seg hseg; exact absurd hseg (by simp)
  | cons a rest ih =>
    intro cursor hal seg hseg
    have h1 := hal.1
    rcases List.mem_cons.mp hseg with h | h
    · cases h; omega
    · have := ih (cursor + a.text.length) hal.2 seg h
      omega

theorem alignedAt_pairwise (d : Nat) : ∀ (segs : List Segment) (cursor : Nat),
    AlignedAt d cursor segs →
    List.Pairwise (fun a b => a.start ≤ b.start) segs := by
  intro segs
  induction segs with
  | nil => intro _ _; exact List.Pairwise.nil
  | cons a rest ih =>
    intro cursor hal
    refine List.pairwise_cons.mpr ⟨?_, ih _ hal.2⟩
    intro b hb
    have h1 := hal.1
    have := alignedAt_start_ge d rest (cursor + a.text.length) hal.2 b hb
    omega

theorem insertByStart_of_le (seg : Segment) :
    ∀ l : List Segment, (∀ b ∈ l, seg.start ≤ b.start) →
      insertByStart seg l = seg :: l := by
  intro l h
  cases l with
  | nil => rfl
  | cons b rest =>
    have : seg.start ≤ b.start := h b (List.mem_cons_self _ _)
    simp [insertByStart, this]

theorem sortSegments_eq_self : ∀ l : List Segment,
    List.Pairwise (fun a b => a.start ≤ b.start) l → sortSegments l = l := by
  intro l
  induction l with
  | nil => intro _; rfl
  | cons a rest ih =>
    intro hp
    have hp' := List.pairwise_cons.mp hp
    simp only [sortSegments, ih hp'.2]
    exact insertByStart_of_le a rest hp'.1

theorem mapSpan_end_only (d : Nat) : ∀ (segs : List Segment) (cursor ts te v : Nat),
    AlignedAt d cursor segs → cursor < te → te ≤ cursor + totalLen segs →
    ts < cursor →
    mapSpan segs cursor ts te (some v) = (some v, some (d + te)) := by
  intro segs
  induction segs with
  | nil =>
    intro cursor ts te v _ h1 h2 _
    simp only [totalLen] at h2
    omega
  | cons seg rest ih =>
    intro cursor ts te v hal h1 h2 h3
    have hst := hal.1
    simp only [mapSpan]
    have hacc : ¬ ((some v : Option Nat) = none ∧ cursor ≤ ts ∧ ts < cursor + seg.text.length) := by
      intro hc
      exact absurd hc.1 (by simp)
    rw [if_neg hacc]
    by_cases hte : cursor < te ∧ te ≤ cursor + seg.text.length
    · rw [if_pos hte]
      have : seg.start + (te - cursor) = d + te := by omega
      rw [this]
    · rw [if_neg hte]
      have hte' : cursor + seg.text.length < te := by omega
      apply ih
      · exact hal.2
      · omega
      · simp only [totalLen] at h2; omega
      · omega

theorem mapSpan_aligned (d : Nat) : ∀ (segs : List Segment) (cursor ts te : Nat),
    AlignedAt d cursor segs → cursor ≤ ts → ts < te →
    te ≤ cursor + totalLen segs →
    mapSpan segs cursor ts te none = (some (d + ts), some (d + te)) := by
  intro segs
  induction segs with
  | nil =>
    intro cursor ts te _ h1 h2 h3
    simp only [totalLen] at h3
    omega
  | cons seg rest ih =>
    intro cursor ts te hal h1 h2 h3
    have hst := hal.1
    simp only [mapSpan]
    by_cases hte : cursor < te ∧ te ≤ cursor + seg.text.length
    · rw [if_pos hte]
      have hts : ts < cursor + seg.text.length := by omega
      rw [if_pos (show True ∧ cursor ≤ ts ∧ ts < cursor + seg.text.length from
        ⟨trivial, h1, hts⟩)]
      have e1 : seg.start + (ts - cursor) = d + ts := by omega
      have e2 : seg.start + (te - cursor) = d + te := by omega
      rw [e1, e2]
    · rw [if_neg hte]
      have hte' : cursor + seg.text.length < te := by omega
      by_cases hts : ts < cursor + seg.text.length
      · rw [if_pos (show True ∧ cursor ≤ ts ∧ ts < cursor + seg.text.length from
          ⟨trivial, h1, hts⟩)]
        have e1 : seg.start + (ts - cursor) = d + ts := by omega
        rw [e1]
        apply mapSpan_end_only
        · exact hal.2
        · omega
        · simp only [totalLen] at h3; omega
        · omega
      · rw [if_neg (show ¬ (True ∧ cursor ≤ ts ∧ ts < cursor + seg.text.length) from
          fun hc => hts hc.2.2)]
        apply ih
        · exact hal.2
        · omega
        · omega
        · simp only [totalLen] at h3; omega

/-! ### Small list helpers (proved locally to fix names) -/

theorem drop_of_length_le {α : Type} : ∀ (l : List α) (k : Nat),
    l.length ≤ k → l.drop k = [] := by
  intro l
  induction l with
  | nil => intro k _; simp
  | cons a t ih =>
    intro k hk
    cases k with
    | zero => simp at hk
    | succ k => simpa using ih k (by simpa using hk)

theorem length_le_of_getElem?_none {α : Type} : ∀ (l : List α) (k : Nat),
    l[k]? = none → l.length ≤ k := by
  intro l
  induction l with
  | nil => intro k _; simp
  | cons a t ih =>
    intro k hk
    cases k with
    | zero => simp at hk
    | succ k =>
      simp only [List.getElem?_cons_succ] at hk
      have := ih k hk
      simp only [List.length_cons]
      omega

theorem drop_of_getElem?_some {α : Type} : ∀ (l : List α) (k : Nat) (a : α),
    l[k]? = some a → l.drop k = a :: l.drop (k + 1) := by
  intro l
  induction l with
  | nil => intro k a h; simp at h
  | cons b t ih =>
    intro k a hk
    cases k with
    | zero =>
      simp only [List.getElem?_cons_zero, Option.some.injEq] at hk
      cases hk
      simp
    | succ k =>
      simp only [List.getElem?_cons_succ] at hk
      simpa using ih k a hk

theorem mem_of_getElem?_some {α : Type} : ∀ (l : List α) (k : Nat) (a : α),
    l[k]? = some a → a ∈ l := by
  intro l
  induction l with
  | nil => intro k a h; simp at h
  | cons b t ih =>
    intro k a hk
    cases k with
    | zero =>
      simp only [List.getElem?_cons_zero, Option.some.injEq] at hk
      cases hk
      exact List.mem_cons_self _ _
    | succ k =>
      simp only [List.getElem?_cons_succ] at hk
      exact List.mem_cons_of_mem _ (ih k a hk)

/-- First native start offset of the collected segment list (0 for the
empty list); for a gap-free list this is the displacement between
logical position 0 and native offsets. -/
def firstStart : List Segment → Nat
  | [] => 0
  | seg :: _ => seg.start

theorem alignedAt_firstStart (segs : List Segment)
    (hwf : ∀ seg ∈ segs, seg.endIdx = seg.start + seg.text.length)
    (hchain : List.Chain' (fun a b => a.endIdx = b.start) segs) :
    AlignedAt (firstStart segs) 0 segs := by
  apply alignedAt_of_chain segs 0 (firstStart segs) hwf hchain
  intro seg0 rest0 h
  rw [h]
  simp [firstStart]

/-- Characterization of `findTextRangePure` on a gap-free segment
list: the result is exactly the scan's `(n-1)`-th occurrence position
translated by the first segment's native start, and `none` when the
scan has fewer than `n` occurrence positions. -/
theorem findTextRangePure_contiguous (segs : List Segment) (s : List Char)
    (n : Nat)
    (hwf : ∀ seg ∈ segs, seg.endIdx = seg.start + seg.text.length)
    (hchain : List.Chain' (fun a b => a.endIdx = b.start) segs)
    (hs : s ≠ []) (hn : 1 ≤ n) :
    findTextRangePure segs s n
      = ((occPositionsFrom (fullTextOf segs) s 0)[n - 1]?).map
          (fun p => ⟨firstStart segs + p, firstStart segs + p + s.length⟩) := by
  have hal := alignedAt_firstStart segs hwf hchain
  have hsort := sortSegments_eq_self segs (alignedAt_pairwise _ segs 0 hal)
  unfold findTextRangePure
  rw [if_neg (by omega : ¬ n = 0), hsort,
    findLoop_eq_tryMapFirst (fullTextOf segs) segs s n 0 hn]
  cases hg : (occPositionsFrom (fullTextOf segs) s 0)[n - 1]? with
  | none =>
    rw [drop_of_length_le _ _ (length_le_of_getElem?_none _ _ hg)]
    simp [tryMapFirst]
  | some p =>
    rw [drop_of_getElem?_some _ _ _ hg]
    rw [tryMapFirst]
    have hmem := mem_of_getElem?_some _ _ _ hg
    have hbound := occPositionsFrom_mem_bound hmem
    rw [fullTextOf_length] at hbound
    have hslen : 0 < s.length := by
      cases s with
      | nil => exact absurd rfl hs
      | cons a t => simp
    rw [mapSpan_aligned (firstStart segs) segs 0 p (p + s.length) hal
      (Nat.zero_le p) (by omega) (by omega)]
    have e : firstStart segs + (p + s.length) = firstStart segs + p + s.length := by omega
    rw [e]
    rfl

/-! ### Document structure tree -/

/-- One element of a paragraph's `elements` array as fetched by
`findTextRange`: optional `startIndex` / `endIndex` and the optional
`textRun.content`. -/
structure ParaElem where
  startIndex : Option Nat
  endIndex : Option Nat
  content : Option (List Char)
deriving DecidableEq

mutual
inductive StructElem : Type where
  | para (startIndex endIndex : Option Nat) (elems : List ParaElem)
  | table (startIndex endIndex : Option Nat) (rows : Rows)
  | other (startIndex endIndex : Option Nat)
inductive Rows : Type where
  | nil : Rows
  | cons (row : Cells) (rest : Rows) : Rows
inductive Cells : Type where
  | nil : Cells
  | cons (cell : Content) (rest : Cells) : Cells
inductive Content : Type where
  | nil : Content
  | cons (e : StructElem) (rest : Content) : Content
end

/-- A paragraph element contributes a segment exactly when it has a
truthy `textRun.content` (a non-empty string) and defined
`startIndex` / `endIndex`, per the guard
`pe.textRun?.content && pe.startIndex !== undefined && pe.endIndex !== undefined`. -/
def segOfParaElem (pe : ParaElem) : Option Segment :=
  match pe.content, pe.startIndex, pe.endIndex with
  | some c, some a, some b => if c = [] then none else some ⟨c, a, b⟩
  | _, _, _ => none

mutual
/-- The `collectTextFromContent` walk of `findTextRange`: paragraph
elements contribute their text runs in order; tables are walked
row-major and, within each row, cell by cell; other structural
elements contribute nothing. -/
def collectFromContent : Content → List Segment
  | .nil => []
  | .cons e rest => collectFromElem e ++ collectFromContent rest
def collectFromElem : StructElem → List Segment
  | .para _ _ pes => pes.filterMap segOfParaElem
  | .table _ _ rows => collectFromRows rows
  | .other _ _ => []
def collectFromRows : Rows → List Segment
  | .nil => []
  | .cons row rest => collectFromCells row ++ collectFromRows rest
def collectFromCells : Cells → List Segment
  | .nil => []
  | .cons cell rest => collectFromContent cell ++ collectFromCells rest
end

/-- `findTextRange` with the fetched document body passed in place of
the network call: collect the segments (and with them the logical
string), then run the occurrence scan and offset mapping. -/
def findTextRange (content : Content) (textToFind : List Char) (inst : Nat) :
    Option NativeRange :=
  findTextRangePure (collectFromContent content) textToFind inst

mutual
/-- The `findParagraphInContent` walk of `getParagraphRange`: scan the
elements in order; an element with defined bounds containing the
offset is returned if it is a paragraph, recursed into cell by cell if
it is a table, and skipped otherwise. -/
def findParagraphInContent (indexWithin : Nat) : Content → Option NativeRange
  | .nil => none
  | .cons e rest =>
    match findParagraphInElem indexWithin e with
    | some r => some r
    | none => findParagraphInContent indexWithin rest
def findParagraphInElem (indexWithin : Nat) : StructElem → Option NativeRange
  | .para (some a) (some b) _ =>
    if a ≤ indexWithin ∧ indexWithin < b then some ⟨a, b⟩ else none
  | .table (some a) (some b) rows =>
    if a ≤ indexWithin ∧ indexWithin < b then findParagraphInRows indexWithin rows
    else none
  | _ => none
def findParagraphInRows (indexWithin : Nat) : Rows → Option NativeRange
  | .nil => none
  | .cons row rest =>
    match findParagraphInCells indexWithin row with
    | some r => some r
    | none => findParagraphInRows indexWithin rest
def findParagraphInCells (indexWithin : Nat) : Cells → Option NativeRange
  | .nil => none
  | .cons cell rest =>
    match findParagraphInContent indexWithin cell with
    | some r => some r
    | none => findParagraphInCells indexWithin rest
end

/-- `getParagraphRange` with the fetched document body passed in place
of the network call. -/
def getParagraphRange (content : Content) (indexWithin : Nat) :
    Option NativeRange :=
  findParagraphInContent indexWithin content

mutual
/-- `paraRangeInContent idx r c` holds when some paragraph element of
`c` — possibly nested inside tables whose own defined ranges contain
`idx`, so the walk can reach it — has defined range exactly `r` with
`r.startIndex ≤ idx < r.endIndex`. -/
def paraRangeInContent (idx : Nat) (r : NativeRange) : Content → Bool
  | .nil => false
  | .cons e rest => paraRangeInElem idx r e || paraRangeInContent idx r rest
def paraRangeInElem (idx : Nat) (r : NativeRange) : StructElem → Bool
  | .para (some a) (some b) _ =>
    decide (a ≤ idx) && decide (idx < b) && decide (r = NativeRange.mk a b)
  | .table (some a) (some b) rows =>
    decide (a ≤ idx) && decide (idx < b) && paraRangeInRows idx r rows
  | _ => false
def paraRangeInRows (idx : Nat) (r : NativeRange) : Rows → Bool
  | .nil => false
  | .cons row rest => paraRangeInCells idx r row || paraRangeInRows idx r rest
def paraRangeInCells (idx : Nat) (r : NativeRange) : Cells → Bool
  | .nil => false
  | .cons cell rest => paraRangeInContent idx r cell || paraRangeInCells idx r rest
end

mutual
theorem findPara_isSome_content (idx : Nat) (r0 : NativeRange) :
    ∀ c : Content, paraRangeInContent idx r0 c = true →
      (findParagraphInContent idx c).isSome = true
  | .cons e rest, h => by
    rw [findParagraphInContent]
    rcases Bool.or_eq_true_iff.mp h with h' | h'
    · have := findPara_isSome_elem idx r0 e h'
      cases hf : findParagraphInElem idx e with
      | none => rw [hf] at this; simp at this
      | some r => simp
    · cases hf : findParagraphInElem idx e with
      | none => exact findPara_isSome_content idx r0 rest h'
      | some r => simp
theorem findPara_isSome_elem (idx : Nat) (r0 : NativeRange) :
    ∀ e : StructElem, paraRangeInElem idx r0 e = true →
      (findParagraphInElem idx e).isSome = true
  | .para (some a) (some b) pes, h => by
    simp only [paraRangeInElem, Bool.and_eq_true, decide_eq_true_eq] at h
    rw [findParagraphInElem, if_pos ⟨h.1.1, h.1.2⟩]
    rfl
  | .table (some a) (some b) rows, h => by
    simp only [paraRangeInElem, Bool.and_eq_true, decide_eq_true_eq] at h
    rw [findParagraphInElem, if_pos ⟨h.1.1, h.1.2⟩]
    exact findPara_isSome_rows idx r0 rows h.2
theorem findPara_isSome_rows (idx : Nat) (r0 : NativeRange) :
    ∀ rows : Rows, paraRangeInRows idx r0 rows = true →
      (findParagraphInRows idx rows).isSome = true
  | .cons row rest, h => by
    rw [findParagraphInRows]
    rcases Bool.or_eq_true_iff.mp h with h' | h'
    · have := findPara_isSome_cells idx r0 row h'
      cases hf : findParagraphInCells idx row with
      | none => rw [hf] at this; simp at this
      | some r => simp
    · cases hf : findParagraphInCells idx row with
      | none => exact findPara_isSome_rows idx r0 rest h'
      | some r => simp
theorem findPara_isSome_cells (idx : Nat) (r0 : NativeRange) :
    ∀ cells : Cells, paraRangeInCells idx r0 cells = true →
      (findParagraphInCells idx cells).isSome = true
  | .cons cell rest, h => by
    rw [findParagraphInCells]
    rcases Bool.or_eq_true_iff.mp h with h' | h'
    · have := findPara_isSome_content idx r0 cell h'
      cases hf : findParagraphInContent idx cell with
      | none => rw [hf] at this; simp at this
      | some r => simp
    · cases hf : findParagraphInContent idx cell with
      | none => exact findPara_isSome_cells idx r0 rest h'
      | some r => simp
end

mutual
theorem findPara_sound_content (idx : Nat) (r : NativeRange) :
    ∀ c : Content, findParagraphInContent idx c = some r →
      paraRangeInContent idx r c = true
  | .nil, h => by
    rw [findParagraphInContent] at h
    cases h
  | .cons e rest, h => by
    rw [findParagraphInContent] at h
    rw [paraRangeInContent]
    cases hf : findParagraphInElem idx e with
    | some r' =>
      rw [hf] at h
      cases Option.some.inj h
      rw [findPara_sound_elem idx r e hf]
      simp
    | none =>
      rw [hf] at h
      rw [findPara_sound_content idx r rest h]
      simp
theorem findPara_sound_elem (idx : Nat) (r : NativeRange) :
    ∀ e : StructElem, findParagraphInElem idx e = some r →
      paraRangeInElem idx r e = true
  | .para (some a) (some b) pes, h => by
    rw [findParagraphInElem] at h
    split at h
    · next hin =>
      cases Option.some.inj h
      simp only [paraRangeInElem, Bool.and_eq_true, decide_eq_true_eq]
      exact ⟨⟨hin.1, hin.2⟩, trivial⟩
    · cases h
  | .para (some a) none pes, h => nomatch h
  | .para none eI pes, h => nomatch h
  | .table (some a) (some b) rows, h => by
    rw [findParagraphInElem] at h
    split at h
    · next hin =>
      simp only [paraRangeInElem, Bool.and_eq_true, decide_eq_true_eq]
      exact ⟨⟨hin.1, hin.2⟩, findPara_sound_rows idx r rows h⟩
    · cases h
  | .table (some a) none rows, h => nomatch h
  | .table none eI rows, h => nomatch h
  | .other sI eI, h => nomatch h
theorem findPara_sound_rows (idx : Nat) (r : NativeRange) :
    ∀ rows : Rows, findParagraphInRows idx rows = some r →
      paraRangeInRows idx r rows = true
  | .nil, h => by
    rw [findParagraphInRows] at h
    cases h
  | .cons row rest, h => by
    rw [findParagraphInRows] at h
    rw [paraRangeInRows]
    cases hf : findParagraphInCells idx row with
    | some r' =>
      rw [hf] at h
      cases Option.some.inj h
      rw [findPara_sound_cells idx r row hf]
      simp
    | none =>
      rw [hf] at h
      rw [findPara_sound_rows idx r rest h]
      simp
theorem findPara_sound_cells (idx : Nat) (r : NativeRange) :
    ∀ cells : Cells, findParagraphInCells idx cells = some r →
      paraRangeInCells idx r cells = true
  | .nil, h => by
    rw [findParagraphInCells] at h
    cases h
  | .cons cell rest, h => by
    rw [findParagraphInCells] at h
    rw [paraRangeInCells]
    cases hf : findParagraphInContent idx cell with
    | some r' =>
      rw [hf] at h
      cases Option.some.inj h
      rw [findPara_sound_content idx r cell hf]
      simp
    | none =>
      rw [hf] at h
      rw [findPara_sound_cells idx r rest h]
      simp
end

/-! ### Colors and style request builders -/

/-- Channel triple of a parsed hex color.  The source stores each
channel as the IEEE-754 quotient `value / 255`; floats are not
modelled, so the 0–255 integer numerator of that division is recorded
instead (no claim below depends on channel values). -/
structure RgbColor where
  red : Nat
  green : Nat
  blue : Nat
deriving DecidableEq

def isHexDigit (c : Char) : Bool :=
  (decide ('0' ≤ c) && decide (c ≤ '9')) ||
  (decide ('a' ≤ c) && decide (c ≤ 'f')) ||
  (decide ('A' ≤ c) && decide (c ≤ 'F'))

def stripHash : List Char → List Char
  | [] => []
  | c :: rest => if c = '#' then rest else c :: rest

/-- Whether a color string matches the validation pattern
`^#?([0-9A-Fa-f]{3}|[0-9A-Fa-f]{6})$`. -/
def matchesHexPattern (s : List Char) : Bool :=
  let t := stripHash s
  (decide (t.length = 3) || decide (t.length = 6)) && t.all isHexDigit

def hexDigitVal (c : Char) : Nat :=
  if '0' ≤ c ∧ c ≤ '9' then c.toNat - Char.toNat '0'
  else if 'a' ≤ c ∧ c ≤ 'f' then c.toNat - Char.toNat 'a' + 10
  else if 'A' ≤ c ∧ c ≤ 'F' then c.toNat - Char.toNat 'A' + 10
  else 0

/-- Expansion of a 3-digit shorthand by duplicating each digit. -/
def dupDigits : List Char → List Char
  | [] => []
  | c :: rest => c :: c :: dupDigits rest

def rgbOfHex6 : List Char → RgbColor
  | [r1, r2, g1, g2, b1, b2] =>
    ⟨16 * hexDigitVal r1 + hexDigitVal r2,
     16 * hexDigitVal g1 + hexDigitVal g2,
     16 * hexDigitVal b1 + hexDigitVal b2⟩
  | _ => ⟨0, 0, 0⟩

/-- Modelled from the spec: `hexToRgbColor` lives in the repository's
`types.ts`, which is not present in the source tree (only its callers
and its test suite are).  Per the specification it validates the input
against `^#?([0-9A-Fa-f]{3}|[0-9A-Fa-f]{6})$`, returns `null` on a
mismatch, expands 3-digit shorthand by duplicating each digit, and
converts the three channel pairs (here kept as the 0–255 numerators of
the `/255` normalization). -/
def hexToRgbColor (s : List Char) : Option RgbColor :=
  if matchesHexPattern s then
    let t := stripHash s
    let t6 := if t.length = 3 then dupDigits t else t
    some (rgbOfHex6 t6)
  else none

theorem hexToRgbColor_eq_none {s : List Char}
    (h : matchesHexPattern s = false) : hexToRgbColor s = none := by
  unfold hexToRgbColor
  rw [if_neg (by rw [h]; exact Bool.false_ne_true)]

/-- Sparse character-style option record (`TextStyleArgs` in the
source; numeric font size kept abstract as `Int`). -/
structure TextStyleArgs where
  bold : Option Bool := none
  italic : Option Bool := none
  underline : Option Bool := none
  strikethrough : Option Bool := none
  fontSize : Option Int := none
  fontFamily : Option String := none
  foregroundColor : Option (List Char) := none
  backgroundColor : Option (List Char) := none
  linkUrl : Option String := none
deriving DecidableEq

/-- Sparse paragraph-style option record (`ParagraphStyleArgs`). -/
structure ParagraphStyleArgs where
  alignment : Option String := none
  indentStart : Option Int := none
  indentEnd : Option Int := none
  spaceAbove : Option Int := none
  spaceBelow : Option Int := none
  namedStyleType : Option String := none
  keepWithNext : Option Bool := none
deriving DecidableEq

/-- The `textStyle` payload assembled by the builder. -/
structure TextStyle where
  bold : Option Bool := none
  italic : Option Bool := none
  underline : Option Bool := none
  strikethrough : Option Bool := none
  fontSize : Option Int := none
  weightedFontFamily : Option String := none
  foregroundColor : Option RgbColor := none
  backgroundColor : Option RgbColor := none
  link : Option String := none
deriving DecidableEq

/-- The `paragraphStyle` payload assembled by the builder. -/
structure ParagraphStyle where
  alignment : Option String := none
  indentStart : Option Int := none
  indentEnd : Option Int := none
  spaceAbove : Option Int := none
  spaceBelow : Option Int := none
  namedStyleType : Option String := none
  keepWithNext : Option Bool := none
deriving DecidableEq

/-- An `updateTextStyle` request together with its field list (the
source joins the list with commas into the `fields` mask). -/
structure UpdateTextStyleRequestInfo where
  range : NativeRange
  textStyle : TextStyle
  fields : List String
deriving DecidableEq

/-- An `updateParagraphStyle` request together with its field list. -/
structure UpdateParagraphStyleRequestInfo where
  range : NativeRange
  paragraphStyle : ParagraphStyle
  fields : List String
deriving DecidableEq

/-- Failure condition of the text style builder: an invalid hex color
string (`InvalidColor`), thrown as a user-facing error. -/
inductive BuildError where
  | invalidColor (hex : List Char)
deriving DecidableEq

/-- One `if (style.x !== undefined) { payload.y = ...; fields.push('y') }`
step of a builder. -/
def addOpt {σ α : Type} (v : Option α) (name : String) (set : α → σ → σ)
    (acc : σ × List String) : σ × List String :=
  match v with
  | none => acc
  | some x => (set x acc.1, acc.2 ++ [name])

/-- A color step: validate and convert the hex string, failing with
`InvalidColor` on a mismatch. -/
def addColorOpt (v : Option (List Char)) (name : String)
    (set : RgbColor → TextStyle → TextStyle) (acc : TextStyle × List String) :
    Except BuildError (TextStyle × List String) :=
  match v with
  | none => Except.ok acc
  | some c =>
    match hexToRgbColor c with
    | none => Except.error (BuildError.invalidColor c)
    | some rgb => Except.ok (set rgb acc.1, acc.2 ++ [name])

/-- `buildUpdateTextStyleRequest`: assemble payload and field list in
source order; `ok none` models the source's `return null` when no
option is set, and `error` models the thrown `UserError` for an
invalid color. -/
def buildUpdateTextStyleRequest (startIndex endIndex : Nat)
    (style : TextStyleArgs) :
    Except BuildError (Option UpdateTextStyleRequestInfo) :=
  let acc : TextStyle × List String := ({}, [])
  let acc := addOpt style.bold "bold" (fun v ts => { ts with bold := some v }) acc
  let acc := addOpt style.italic "italic" (fun v ts => { ts with italic := some v }) acc
  let acc := addOpt style.underline "underline"
    (fun v ts => { ts with underline := some v }) acc
  let acc := addOpt style.strikethrough "strikethrough"
    (fun v ts => { ts with strikethrough := some v }) acc
  let acc := addOpt style.fontSize "fontSize"
    (fun v ts => { ts with fontSize := some v }) acc
  let acc := addOpt style.fontFamily "weightedFontFamily"
    (fun v ts => { ts with weightedFontFamily := some v }) acc
  match addColorOpt style.foregroundColor "foregroundColor"
    (fun rgb ts => { ts with foregroundColor := some rgb }) acc with
  | Except.error e => Except.error e
  | Except.ok acc =>
    match addColorOpt style.backgroundColor "backgroundColor"
      (fun rgb ts => { ts with backgroundColor := some rgb }) acc with
    | Except.error e => Except.error e
    | Except.ok acc =>
      let acc := addOpt style.linkUrl "link" (fun v ts => { ts with link := some v }) acc
      if acc.2 = [] then Except.ok none
      else Except.ok (some ⟨⟨startIndex, endIndex⟩, acc.1, acc.2⟩)

/-- `buildUpdateParagraphStyleRequest`: assemble payload and field
list in source order; `none` models the source's `return null` when no
option is set. -/
def buildUpdateParagraphStyleRequest (startIndex endIndex : Nat)
    (style : ParagraphStyleArgs) : Option UpdateParagraphStyleRequestInfo :=
  let acc : ParagraphStyle × List String := ({}, [])
  let acc := addOpt style.alignment "alignment"
    (fun v ps => { ps with alignment := some v }) acc
  let acc := addOpt style.indentStart "indentStart"
    (fun v ps => { ps with indentStart := some v }) acc
  let acc := addOpt style.indentEnd "indentEnd"
    (fun v ps => { ps with indentEnd := some v }) acc
  let acc := addOpt style.spaceAbove "spaceAbove"
    (fun v ps => { ps with spaceAbove := some v }) acc
  let acc := addOpt style.spaceBelow "spaceBelow"
    (fun v ps => { ps with spaceBelow := some v }) acc
  let acc := addOpt style.namedStyleType "namedStyleType"
    (fun v ps => { ps with namedStyleType := some v }) acc
  let acc := addOpt style.keepWithNext "keepWithNext"
    (fun v ps => { ps with keepWithNext := some v }) acc
  if acc.2 = [] then none
  else some ⟨⟨startIndex, endIndex⟩, acc.1, acc.2⟩

/-- One canonical field-mask entry per set option (empty when unset). -/
def optField {α : Type} (v : Option α) (name : String) : List String :=
  match v with
  | none => []
  | some _ => [name]

/-- The canonical field list of a character-style record: exactly one
entry, in source order, per option that is set. -/
def textStyleFieldList (s : TextStyleArgs) : List String :=
  optField s.bold "bold" ++ optField s.italic "italic" ++
  optField s.underline "underline" ++ optField s.strikethrough "strikethrough" ++
  optField s.fontSize "fontSize" ++ optField s.fontFamily "weightedFontFamily" ++
  optField s.foregroundColor "foregroundColor" ++
  optField s.backgroundColor "backgroundColor" ++ optField s.linkUrl "link"

/-- The canonical field list of a paragraph-style record. -/
def paragraphStyleFieldList (s : ParagraphStyleArgs) : List String :=
  optField s.alignment "alignment" ++ optField s.indentStart "indentStart" ++
  optField s.indentEnd "indentEnd" ++ optField s.spaceAbove "spaceAbove" ++
  optField s.spaceBelow "spaceBelow" ++ optField s.namedStyleType "namedStyleType" ++
  optField s.keepWithNext "keepWithNext"

/-! ### Batch executor and tool layer -/

/-- A mutation request of the batch-update API (only the operations
the modelled code paths construct). -/
inductive DocRequest where
  | deleteContentRange (startIndex endIndex : Nat)
  | insertText (index : Nat) (text : List Char)
  | updateTextStyle (info : UpdateTextStyleRequestInfo)
  | updateParagraphStyle (info : UpdateParagraphStyleRequestInfo)
deriving DecidableEq

/-- Result of a helper that may send one batch update: the requests
that went out over the network (none for the empty-batch early return,
whose response is the bare `{}`). -/
structure HelperOutcome where
  requestsSent : List DocRequest
  emptyResponse : Bool
deriving DecidableEq

/-- `executeBatchUpdate`: an empty request list is a no-op returning
`{}` immediately with no network call; otherwise the whole list goes
out in one call. -/
def executeBatchUpdate (requests : List DocRequest) : HelperOutcome :=
  if requests.isEmpty then ⟨[], true⟩
  else ⟨requests, false⟩

/-- The `insertText` helper: `if (!text) return {}` — an empty string
returns the empty result before `executeBatchUpdate` is ever invoked;
otherwise one `insertText` request is sent. -/
def insertText (text : List Char) (index : Nat) : HelperOutcome :=
  if text.isEmpty then ⟨[], true⟩
  else executeBatchUpdate [DocRequest.insertText index text]

/-- User-facing failures of the tool layer. -/
inductive ToolError where
  | invalidRange
  | notFound
  | invalidColor (hex : List Char)
  | paragraphNotFound
deriving DecidableEq

/-- Target union of `applyTextStyle`: an explicit native range or a
search-text-plus-occurrence target. -/
inductive StyleTarget where
  | range (startIndex endIndex : Nat)
  | text (textToFind : List Char) (matchInstance : Nat)
deriving DecidableEq

/-- Target union of `applyParagraphStyle`. -/
inductive ParaTarget where
  | range (startIndex endIndex : Nat)
  | text (textToFind : List Char) (matchInstance : Nat)
  | indexWithinParagraph (idx : Nat)
deriving DecidableEq

/-- The `deleteRange` tool body: the guard
`if (args.endIndex <= args.startIndex) throw new UserError(...)` runs
before the request is constructed and before `executeBatchUpdate`; the
`ok` payload is the batch that would then be sent.  (The zod schema
additionally refuses such argument pairs before `execute` runs.) -/
def deleteRange (startIndex endIndex : Nat) : Except ToolError (List DocRequest) :=
  if endIndex ≤ startIndex then Except.error ToolError.invalidRange
  else Except.ok [DocRequest.deleteContentRange startIndex endIndex]

/-- The `applyTextStyle` tool body: resolve the target to a native
range (via `findTextRange` for a text target), reject an empty or
inverted range before building, then build the style request; a `null`
build result returns the no-op message and sends nothing. -/
def applyTextStyle (content : Content) (target : StyleTarget)
    (style : TextStyleArgs) : Except ToolError (List DocRequest) :=
  let resolved : Except ToolError NativeRange :=
    match target with
    | .range s e => Except.ok (NativeRange.mk s e)
    | .text t n =>
      match findTextRange content t n with
      | none => Except.error ToolError.notFound
      | some r => Except.ok r
  match resolved with
  | Except.error e => Except.error e
  | Except.ok r =>
    if r.endIndex ≤ r.startIndex then Except.error ToolError.invalidRange
    else
      match buildUpdateTextStyleRequest r.startIndex r.endIndex style with
      | Except.error (BuildError.invalidColor c) =>
        Except.error (ToolError.invalidColor c)
      | Except.ok none => Except.ok []
      | Except.ok (some info) => Except.ok [DocRequest.updateTextStyle info]

/-- The `applyParagraphStyle` tool body: resolve the target paragraph
range (text target: `findTextRange` then `getParagraphRange` at the
match's start; index target: `getParagraphRange`; explicit range used
as is), reject an inverted range before building, then build; a `null`
build result returns the no-op message and sends nothing.  A zero
`matchInstance` falls back to 1 (`args.target.matchInstance || 1`). -/
def applyParagraphStyle (content : Content) (target : ParaTarget)
    (style : ParagraphStyleArgs) : Except ToolError (List DocRequest) :=
  let resolved : Except ToolError NativeRange :=
    match target with
    | .range s e => Except.ok (NativeRange.mk s e)
    | .text t n =>
      match findTextRange content t (if n = 0 then 1 else n) with
      | none => Except.error ToolError.notFound
      | some tr =>
        match getParagraphRange content tr.startIndex with
        | none => Except.error ToolError.paragraphNotFound
        | some pr => Except.ok pr
    | .indexWithinParagraph idx =>
      match getParagraphRange content idx with
      | none => Except.error ToolError.notFound
      | some pr => Except.ok pr
  match resolved with
  | Except.error e => Except.error e
  | Except.ok r =>
    if r.endIndex ≤ r.startIndex then Except.error ToolError.invalidRange
    else
      match buildUpdateParagraphStyleRequest r.startIndex r.endIndex style with
      | none => Except.ok []
      | some info => Except.ok [DocRequest.updateParagraphStyle info]

/-! ### The claim's reading of the occurrence scan -/

/-- Occurrence counting as the claim words it: left-to-right scanning
with no overlap between consecutively counted matches, i.e. each
subsequent search resumes at the previous match's end
(`matchStart + length(searchString)`).  This definition follows the
claim's words, for comparison against the source-derived scan. -/
def nthNonOverlappingOccurrence (t s : List Char) : Nat → Nat → Option Nat
  | n + 2, i =>
    match indexOfFrom t s i with
    | none => none
    | some p => nthNonOverlappingOccurrence t s (n + 1) (p + s.length)
  | _, i => indexOfFrom t s i

/-! ### Example data used in witnesses and counterexamples -/

def exC5Text : List Char := "Test test test. This is a test sentence.".data

def exTest : List Char := "test".data

def exAAA : List Char := "aaa".data

def exAA : List Char := "aa".data

def exATest : List Char := "a test".data

def exABC : List Char := "abc".data

def exX : List Char := "x".data

def exSegAAA : Segment := ⟨exAAA, 1, 4⟩

def exSegsSpanning : List Segment :=
  [⟨ "This ".data, 1, 6⟩, ⟨ "is a ".data, 6, 11⟩, ⟨ "test case".data, 11, 20⟩]

def exC5Doc : Content :=
  Content.cons (StructElem.para (some 1) (some 41)
    [⟨some 1, some 41, some exC5Text⟩]) Content.nil

/-! ### Claims -/

/-- Claim C1, counterexample: on the logical string `"aaa"` (one
fragment at native offsets 1–4) with search string `"aa"` and N = 2,
the source scan — which resumes at `matchStart + 1` — counts the
overlapping match at logical position 1 and returns its span
`{2, 4}`, while under the claim's non-overlapping counting no second
occurrence exists at all. -/
theorem claim_C1_counterexample :
    findTextRangePure [exSegAAA] exAA 2 = some ⟨2, 4⟩ ∧
    nthNonOverlappingOccurrence exAAA exAA 2 0 = none := by
  constructor
  · decide
  · decide

/-- Claim C1 (amended): for every gap-free fragment list, non-empty
search string `s` and `N ≥ 1`, `findTextRange`'s occurrence scan
locates the Nth occurrence of `s` counted at strictly increasing start
positions — each search resumes one character past the previous
match's start, so adjacent and even overlapping matches are all
counted — and returns that occurrence's span translated to native
offsets (`none` when fewer than N such occurrences exist). -/
theorem findTextRange_nth_scanned_occurrence (segs : List Segment)
    (s : List Char) (n : Nat)
    (hwf : ∀ seg ∈ segs, seg.endIdx = seg.start + seg.text.length)
    (hchain : List.Chain' (fun a b => a.endIdx = b.start) segs)
    (hs : s ≠ []) (hn : 1 ≤ n) :
    findTextRangePure segs s n
      = ((occPositionsFrom (fullTextOf segs) s 0)[n - 1]?).map
          (fun p => ⟨firstStart segs + p, firstStart segs + p + s.length⟩) :=
  findTextRangePure_contiguous segs s n hwf hchain hs hn

theorem claim_C1_witness :
    findTextRangePure [exSegAAA] exAA 2
      = ((occPositionsFrom (fullTextOf [exSegAAA]) exAA 0)[2 - 1]?).map
          (fun p => ⟨firstStart [exSegAAA] + p, firstStart [exSegAAA] + p + exAA.length⟩) :=
  findTextRange_nth_scanned_occurrence [exSegAAA] exAA 2 (by decide)
    (List.chain'_singleton _) (by decide) (by decide)

/-- Logical start offset of fragment `i` in the reconstructed logical
string (the cumulative length of the preceding fragments). -/
def logicalStart (segs : List Segment) (i : Nat) : Nat :=
  totalLen (segs.take i)

/-- Claim C2: on a fragment list with no native-offset gaps between
consecutive fragments, an occurrence of the search string that begins
inside fragment `i` and ends inside the adjacent fragment `i + 1` is
mapped to a single contiguous native range whose length equals the
search string's length. -/
theorem findTextRange_spanning_fragments (segs : List Segment)
    (s : List Char) (n p i : Nat)
    (hwf : ∀ seg ∈ segs, seg.endIdx = seg.start + seg.text.length)
    (hchain : List.Chain' (fun a b => a.endIdx = b.start) segs)
    (hs : s ≠ []) (hn : 1 ≤ n)
    (hp : (occPositionsFrom (fullTextOf segs) s 0)[n - 1]? = some p)
    (hi : i + 1 < segs.length)
    (hstart : logicalStart segs i ≤ p ∧ p < logicalStart segs (i + 1))
    (hend : logicalStart segs (i + 1) < p + s.length ∧
      p + s.length ≤ logicalStart segs (i + 2)) :
    findTextRangePure segs s n
        = some ⟨firstStart segs + p, firstStart segs + p + s.length⟩ ∧
    (firstStart segs + p + s.length) - (firstStart segs + p) = s.length := by
  constructor
  · rw [findTextRangePure_contiguous segs s n hwf hchain hs hn, hp]
    rfl
  · omega

theorem claim_C2_witness :
    findTextRangePure exSegsSpanning exATest 1 = some ⟨9, 15⟩ ∧
    (9 + 6 : Nat) - 9 = 6 := by
  have h := findTextRange_spanning_fragments exSegsSpanning exATest 1 8 1
    (by decide)
    (by simp [exSegsSpanning, List.chain'_cons])
    (by decide) (by decide) (by decide) (by decide)
    (by constructor <;> decide) (by constructor <;> decide)
  exact ⟨h.1, by omega⟩

/-- Claim C3: the scan-with-mapping loop of `findTextRange` equals the
following reference computation: enumerate every occurrence start
position (each search resuming one past the previous match's start),
drop the first `N - 1`, and return the native image of the first
remaining occurrence whose span maps cleanly — `none` exactly when no
remaining occurrence maps.  In particular a failed mapping is not
counted and does not abort the search. -/
theorem findTextRange_retry_next_occurrence (segs : List Segment)
    (s : List Char) (n : Nat) (hs : s ≠ []) (hn : 1 ≤ n) :
    findTextRangePure segs s n
      = tryMapFirst (sortSegments segs) s.length
          ((occPositionsFrom (fullTextOf segs) s 0).drop (n - 1)) := by
  unfold findTextRangePure
  rw [if_neg (by omega : ¬ n = 0)]
  exact findLoop_eq_tryMapFirst _ _ _ n 0 hn

theorem claim_C3_witness :
    findTextRangePure [exSegAAA] exAA 1
      = tryMapFirst (sortSegments [exSegAAA]) exAA.length
          ((occPositionsFrom (fullTextOf [exSegAAA]) exAA 0).drop (1 - 1)) :=
  findTextRange_retry_next_occurrence [exSegAAA] exAA 1 (by decide) (by decide)

/-- Claim C5: on a document whose body is a single text run
`"Test test test. This is a test sentence."` at native offsets 1–41,
searching `"test"` with instance 3 yields exactly `{27, 31}`. -/
theorem findTextRange_third_instance :
    findTextRange exC5Doc exTest 3 = some ⟨27, 31⟩ := by
  decide

/-- Claim C9: requesting an occurrence count larger than the number of
occurrence positions the scan can visit makes `findTextRange` return
`none` — never a partial or wrapped-around match. -/
theorem findTextRange_instance_too_large (segs : List Segment)
    (s : List Char) (n : Nat) (hs : s ≠ [])
    (h : countOccurrences (fullTextOf segs) s < n) :
    findTextRangePure segs s n = none := by
  unfold countOccurrences at h
  unfold findTextRangePure
  rw [if_neg (by omega : ¬ n = 0),
    findLoop_eq_tryMapFirst _ _ _ n 0 (by omega),
    drop_of_length_le _ _ (by omega)]
  rfl

theorem claim_C9_witness :
    findTextRangePure [⟨exABC, 1, 4⟩] exX 1 = none :=
  findTextRange_instance_too_large [⟨exABC, 1, 4⟩] exX 1 (by decide) (by decide)

/-- Claim C10: the `insertText` helper returns the empty result
immediately on an empty string, sending no batch-update request. -/
theorem insertText_empty_noop (index : Nat) :
    insertText [] index = ⟨[], true⟩ := rfl

theorem claim_C10_witness : insertText [] 7 = ⟨[], true⟩ :=
  insertText_empty_noop 7

/-- Claim C4: for a document snapshot in which some paragraph element
nested inside tables (at any depth, each enclosing table's defined
range containing the offset so the walk can reach it) has defined
range `r0` containing the offset, and `r0` is the only such nested
paragraph range (the snapshot invariant of non-overlapping siblings
guarantees this), `getParagraphRange` returns exactly that cell-level
paragraph's range — a paragraph element's own range, so never the
enclosing table's outer range, and never "not found". -/
theorem getParagraphRange_nested_cell (content : Content) (idx : Nat)
    (r0 : NativeRange)
    (hex : paraRangeInContent idx r0 content = true)
    (huniq : ∀ r, paraRangeInContent idx r content = true → r = r0) :
    getParagraphRange content idx = some r0 := by
  have h1 := findPara_isSome_content idx r0 content hex
  cases hf : findParagraphInContent idx content with
  | none => rw [hf] at h1; exact absurd h1 (by simp)
  | some r =>
    have h2 := findPara_sound_content idx r content hf
    rw [getParagraphRange, hf, huniq r h2]

/-- Example document for the claim C4 witness: a table at offsets
1–30 whose first cell holds another table at offsets 2–25 whose first
cell holds a paragraph at offsets 3–10 (nesting depth two). -/
def exC4Doc : Content :=
  Content.cons
    (StructElem.table (some 1) (some 30)
      (Rows.cons
        (Cells.cons
          (Content.cons
            (StructElem.table (some 2) (some 25)
              (Rows.cons
                (Cells.cons
                  (Content.cons (StructElem.para (some 3) (some 10) []) Content.nil)
                  Cells.nil)
                Rows.nil))
            Content.nil)
          Cells.nil)
        Rows.nil))
    Content.nil

theorem claim_C4_witness : getParagraphRange exC4Doc 5 = some ⟨3, 10⟩ := by
  apply getParagraphRange_nested_cell exC4Doc 5 ⟨3, 10⟩
  · decide
  · intro r h
    simp only [exC4Doc, paraRangeInContent, paraRangeInElem, paraRangeInRows,
      paraRangeInCells, Bool.or_false, Bool.and_eq_true, decide_eq_true_eq] at h
    exact h.2.2.2

theorem addOpt_snd {σ α : Type} (v : Option α) (name : String) (set : α → σ → σ)
    (acc : σ × List String) :
    (addOpt v name set acc).2 = acc.2 ++ optField v name := by
  cases v <;> simp [addOpt, optField]

theorem buildParagraph_none_iff (a b : Nat) (ps : ParagraphStyleArgs) :
    buildUpdateParagraphStyleRequest a b ps = none ↔
      paragraphStyleFieldList ps = [] := by
  unfold buildUpdateParagraphStyleRequest paragraphStyleFieldList
  simp only [addOpt_snd, List.nil_append]
  split
  · next h => exact iff_of_true rfl h
  · next h => exact iff_of_false (by simp) h

theorem buildParagraph_some_fields (a b : Nat) (ps : ParagraphStyleArgs)
    (info : UpdateParagraphStyleRequestInfo)
    (h : buildUpdateParagraphStyleRequest a b ps = some info) :
    info.fields = paragraphStyleFieldList ps ∧ info.fields ≠ [] := by
  unfold buildUpdateParagraphStyleRequest at h
  unfold paragraphStyleFieldList
  simp only [addOpt_snd, List.nil_append] at h ⊢
  split at h
  · cases h
  · next hne =>
    cases Option.some.inj h
    exact ⟨rfl, hne⟩

theorem buildText_ok_none_iff (a b : Nat) (ts : TextStyleArgs) :
    buildUpdateTextStyleRequest a b ts = Except.ok none ↔
      textStyleFieldList ts = [] := by
  rcases hfg : ts.foregroundColor with _ | cf
  · rcases hbg : ts.backgroundColor with _ | cb
    · unfold buildUpdateTextStyleRequest textStyleFieldList
      simp only [hfg, hbg, addColorOpt, addOpt_snd, List.nil_append, optField,
        List.append_nil]
      split
      · next h => exact iff_of_true rfl h
      · next h => exact iff_of_false (by simp) h
    · cases hcb : hexToRgbColor cb with
      | none =>
        unfold buildUpdateTextStyleRequest
        simp only [hfg, hbg, addColorOpt, hcb]
        refine iff_of_false (by simp) ?_
        simp [textStyleFieldList, optField, hbg]
      | some rgb =>
        unfold buildUpdateTextStyleRequest textStyleFieldList
        simp only [hfg, hbg, addColorOpt, hcb, addOpt_snd, List.nil_append, optField,
          List.append_nil]
        split
        · next h => exact iff_of_true rfl h
        · next h => exact iff_of_false (by simp) h
  · cases hcf : hexToRgbColor cf with
    | none =>
      unfold buildUpdateTextStyleRequest
      simp only [hfg, addColorOpt, hcf]
      refine iff_of_false (by simp) ?_
      simp [textStyleFieldList, optField, hfg]
    | some rgbf =>
      rcases hbg : ts.backgroundColor with _ | cb
      · unfold buildUpdateTextStyleRequest textStyleFieldList
        simp only [hfg, hbg, addColorOpt, hcf, addOpt_snd, List.nil_append, optField,
          List.append_nil]
        split
        · next h => exact iff_of_true rfl h
        · next h => exact iff_of_false (by simp) h
      · cases hcb : hexToRgbColor cb with
        | none =>
          unfold buildUpdateTextStyleRequest
          simp only [hfg, hbg, addColorOpt, hcf, hcb]
          refine iff_of_false (by simp) ?_
          simp [textStyleFieldList, optField, hbg]
        | some rgbb =>
          unfold buildUpdateTextStyleRequest textStyleFieldList
          simp only [hfg, hbg, addColorOpt, hcf, hcb, addOpt_snd, List.nil_append,
            optField, List.append_nil]
          split
          · next h => exact iff_of_true rfl h
          · next h => exact iff_of_false (by simp) h

theorem buildText_some_fields (a b : Nat) (ts : TextStyleArgs)
    (info : UpdateTextStyleRequestInfo)
    (h : buildUpdateTextStyleRequest a b ts = Except.ok (some info)) :
    info.fields = textStyleFieldList ts ∧ info.fields ≠ [] := by
  rcases hfg : ts.foregroundColor with _ | cf
  · rcases hbg : ts.backgroundColor with _ | cb
    · unfold buildUpdateTextStyleRequest at h
      unfold textStyleFieldList
      simp only [hfg, hbg, addColorOpt, addOpt_snd, List.nil_append] at h
      simp only [hfg, hbg, optField, List.append_nil, addOpt_snd, List.nil_append]
      split at h
      · cases h
      · next hne =>
        simp only [Except.ok.injEq, Option.some.injEq] at h
        subst h
        refine ⟨?_, ?_⟩
        · simp [optField]
        · intro hc
          exact hne (by simpa [optField] using hc)
    · cases hcb : hexToRgbColor cb with
      | none =>
        unfold buildUpdateTextStyleRequest at h
        simp only [hfg, hbg, addColorOpt, hcb] at h
        exact absurd h (by simp)
      | some rgb =>
        unfold buildUpdateTextStyleRequest at h
        unfold textStyleFieldList
        simp only [hfg, hbg, addColorOpt, hcb, addOpt_snd, List.nil_append] at h
        simp only [hfg, hbg, optField, List.append_nil, addOpt_snd, List.nil_append]
        split at h
        · cases h
        · next hne =>
          simp only [Except.ok.injEq, Option.some.injEq] at h
          subst h
          refine ⟨?_, ?_⟩
          · simp [optField]
          · intro hc
            exact hne (by simpa [optField] using hc)
  · cases hcf : hexToRgbColor cf with
    | none =>
      unfold buildUpdateTextStyleRequest at h
      simp only [hfg, addColorOpt, hcf] at h
      exact absurd h (by simp)
    | some rgbf =>
      rcases hbg : ts.backgroundColor with _ | cb
      · unfold buildUpdateTextStyleRequest at h
        unfold textStyleFieldList
        simp only [hfg, hbg, addColorOpt, hcf, addOpt_snd, List.nil_append] at h
        simp only [hfg, hbg, optField, List.append_nil, addOpt_snd, List.nil_append]
        split at h
        · cases h
        · next hne =>
          simp only [Except.ok.injEq, Option.some.injEq] at h
          subst h
          refine ⟨?_, ?_⟩
          · simp [optField]
          · intro hc
            exact hne (by simpa [optField] using hc)
      · cases hcb : hexToRgbColor cb with
        | none =>
          unfold buildUpdateTextStyleRequest at h
          simp only [hfg, hbg, addColorOpt, hcf, hcb] at h
          exact absurd h (by simp)
        | some rgbb =>
          unfold buildUpdateTextStyleRequest at h
          unfold textStyleFieldList
          simp only [hfg, hbg, addColorOpt, hcf, hcb, addOpt_snd, List.nil_append] at h
          simp only [hfg, hbg, optField, List.append_nil, addOpt_snd, List.nil_append]
          split at h
          · cases h
          · next hne =>
            simp only [Except.ok.injEq, Option.some.injEq] at h
            subst h
            refine ⟨?_, ?_⟩
            · simp [optField]
            · intro hc
              exact hne (by simpa [optField] using hc)

/-- Claim C6: the two style builders return the no-op result (`null`)
exactly when no recognized style option is set in the input record
(equivalently, when the canonical field list — one entry per set
option — is empty); whenever they return a request, its field mask is
the canonical field list, hence non-empty with exactly one entry per
set option. -/
theorem style_builders_field_mask (a b : Nat) (style : TextStyleArgs)
    (pstyle : ParagraphStyleArgs) :
    (buildUpdateTextStyleRequest a b style = Except.ok none ↔
      textStyleFieldList style = []) ∧
    (∀ info, buildUpdateTextStyleRequest a b style = Except.ok (some info) →
      info.fields = textStyleFieldList style ∧ info.fields ≠ []) ∧
    (buildUpdateParagraphStyleRequest a b pstyle = none ↔
      paragraphStyleFieldList pstyle = []) ∧
    (∀ info, buildUpdateParagraphStyleRequest a b pstyle = some info →
      info.fields = paragraphStyleFieldList pstyle ∧ info.fields ≠ []) :=
  ⟨buildText_ok_none_iff a b style,
   fun info h => buildText_some_fields a b style info h,
   buildParagraph_none_iff a b pstyle,
   fun info h => buildParagraph_some_fields a b pstyle info h⟩

def exC6Style : TextStyleArgs := { bold := some true }

def exC6Info : UpdateTextStyleRequestInfo :=
  ⟨⟨1, 3⟩, { bold := some true }, [ "bold" ]⟩

theorem claim_C6_witness :
    buildUpdateTextStyleRequest 1 3 exC6Style = Except.ok (some exC6Info) ∧
    exC6Info.fields = textStyleFieldList exC6Style ∧ exC6Info.fields ≠ [] ∧
    buildUpdateParagraphStyleRequest 1 3 {} = none := by
  have h := style_builders_field_mask 1 3 exC6Style ({} : ParagraphStyleArgs)
  have h1 := h.2.1 exC6Info (by rfl)
  exact ⟨by rfl, h1.1, h1.2, h.2.2.1.mpr (by rfl)⟩

/-- Claim C7: a character-style record carrying a foreground or
background color string that does not match
`^#?([0-9A-Fa-f]{3}|[0-9A-Fa-f]{6})$` makes
`buildUpdateTextStyleRequest` fail with the `InvalidColor` condition
(the only constructor of `BuildError`); no request object — partial or
otherwise — is returned. -/
theorem buildText_invalid_color (a b : Nat) (style : TextStyleArgs)
    (c : List Char)
    (h : style.foregroundColor = some c ∨ style.backgroundColor = some c)
    (hbad : matchesHexPattern c = false) :
    ∃ e, buildUpdateTextStyleRequest a b style = Except.error e := by
  have hc := hexToRgbColor_eq_none hbad
  rcases h with h | h
  · refine ⟨BuildError.invalidColor c, ?_⟩
    unfold buildUpdateTextStyleRequest
    simp only [h, addColorOpt, hc]
  · rcases hfg : style.foregroundColor with _ | cf
    · refine ⟨BuildError.invalidColor c, ?_⟩
      unfold buildUpdateTextStyleRequest
      simp only [hfg, h, addColorOpt, hc]
    · cases hcf : hexToRgbColor cf with
      | none =>
        refine ⟨BuildError.invalidColor cf, ?_⟩
        unfold buildUpdateTextStyleRequest
        simp only [hfg, addColorOpt, hcf]
      | some rgb =>
        refine ⟨BuildError.invalidColor c, ?_⟩
        unfold buildUpdateTextStyleRequest
        simp only [hfg, h, addColorOpt, hcf, hc]

def exInvalidColor : List Char := "invalid".data

theorem claim_C7_witness :
    ∃ e, buildUpdateTextStyleRequest 1 2 { backgroundColor := some exInvalidColor }
      = Except.error e :=
  buildText_invalid_color 1 2 { backgroundColor := some exInvalidColor }
    exInvalidColor (Or.inr rfl) (by decide)

/-- Claim C8: a caller-supplied explicit index pair with
`endIndex ≤ startIndex` makes `deleteRange`, `applyTextStyle` and
`applyParagraphStyle` fail with the `InvalidRange` user-facing error;
an error result carries no request list, so nothing is sent over the
network and the document is untouched. -/
theorem range_tools_reject_inverted (s e : Nat) (h : e ≤ s) :
    deleteRange s e = Except.error ToolError.invalidRange ∧
    (∀ content style, applyTextStyle content (StyleTarget.range s e) style
      = Except.error ToolError.invalidRange) ∧
    (∀ content pstyle, applyParagraphStyle content (ParaTarget.range s e) pstyle
      = Except.error ToolError.invalidRange) := by
  refine ⟨?_, ?_, ?_⟩
  · unfold deleteRange
    rw [if_pos h]
  · intro content style
    unfold applyTextStyle
    simp only []
    rw [if_pos h]
  · intro content pstyle
    unfold applyParagraphStyle
    simp only []
    rw [if_pos h]

theorem claim_C8_witness :
    deleteRange 5 3 = Except.error ToolError.invalidRange ∧
    applyTextStyle Content.nil (StyleTarget.range 5 3) {}
      = Except.error ToolError.invalidRange ∧
    applyParagraphStyle Content.nil (ParaTarget.range 5 3) {}
      = Except.error ToolError.invalidRange := by
  have h := range_tools_reject_inverted 5 3 (by decide)
  exact ⟨h.1, h.2.1 Content.nil {}, h.2.2 Content.nil {}⟩
